import Mathlib

/-!
Verification of the octree-compile LaTeX compilation service.

This file gives a shallow embedding of the compilation cache, the
per-project locking discipline, the file-diff engine, the workspace
materialisation, the bibliography-tool selector, the main-file finder
and the finalisation logic of the service, translated from the Go
sources (`internal/cache.go`, `internal/helpers.go`, the compile
session file), and proves or refutes the specified properties.

Modelling conventions:
* Go maps become association lists (`alookup` / `ainsert` / `aerase`);
  insertion overwrites, iteration follows list order (a deterministic
  refinement of Go's unspecified map order).
* `time.Time` becomes a `Nat` number of minutes; `time.Now()` is an
  explicit `now` argument.
* SHA-256 is an abstract digest function passed as a parameter `h`;
  collision-freeness (`Function.Injective h`) is assumed only where a
  property genuinely needs it.
* Mutexes are numbered by creation order; `heldBy` records which
  session currently holds which mutex, so that lock deletion and
  re-creation (the behaviour under scrutiny) is observable.
-/

namespace OctreeCompile

/-- Association-list lookup, mirroring a Go map read `m[k]`. -/
def alookup {β : Type} : List (String × β) → String → Option β
  | [], _ => none
  | (k', v) :: rest, k => if k' = k then some v else alookup rest k

/-- Association-list insertion, mirroring a Go map write `m[k] = v`:
replaces in place when the key is present, otherwise appends. -/
def ainsert {β : Type} : List (String × β) → String → β → List (String × β)
  | [], k, v => [(k, v)]
  | (k', v') :: rest, k, v =>
    if k' = k then (k, v) :: rest else (k', v') :: ainsert rest k v

/-- Association-list deletion, mirroring Go `delete(m, k)`. -/
def aerase {β : Type} : List (String × β) → String → List (String × β)
  | [], _ => []
  | (k', v') :: rest, k =>
    if k' = k then rest else (k', v') :: aerase rest k

/-- Lookup for `Nat`-keyed association lists (mutex tables). -/
def nlookup {β : Type} : List (Nat × β) → Nat → Option β
  | [], _ => none
  | (k', v) :: rest, k => if k' = k then some v else nlookup rest k

/-- Deletion for `Nat`-keyed association lists. -/
def nerase {β : Type} : List (Nat × β) → Nat → List (Nat × β)
  | [], _ => []
  | (k', v') :: rest, k =>
    if k' = k then rest else (k', v') :: nerase rest k

/-- A file in a compile request (`FileEntry` in the Go source): a
forward-slash relative path, its content, and the encoding tag
(`""` for text, `"base64"` for binary payloads). -/
structure FileEntry where
  path : String
  content : String
  encoding : String
deriving Repr, DecidableEq

/-- Byte-stream fed to the file-set hasher: `HashFileSet` writes
`path, 0x00, content, 0x00` for every file, in request order. -/
def fileSetStream (files : List FileEntry) : String :=
  String.join (files.map (fun f =>
    f.path ++ String.mk [Char.ofNat 0] ++ f.content ++ String.mk [Char.ofNat 0]))

/-- Model of `HashFileSet`: the content fingerprint of an ordered file set.
The SHA-256 digest is the abstract parameter `h`. -/
def hashFileSet (h : String → String) (files : List FileEntry) : String :=
  h (fileSetStream files)

/-- Model of `HashFileContent`: per-file digest over content bytes only. -/
def hashFileContent (h : String → String) (content : String) : String :=
  h content

/-- Model of `CacheEntry` from `internal/cache.go`: the cached compilation for
one project. `lastAccessTime` is modelled in minutes. -/
structure CacheEntry where
  projectID : String
  tempDir : String
  fileHashes : List (String × String)
  contentHash : String
  lastPDFData : List Nat
  lastSHA256 : String
  lastAccessTime : Nat
deriving Repr, DecidableEq

/-- Model of `CompilationCache` state. Beyond the two maps of the Go struct
(`entries`, `projectLocks`), the model tracks the mutex objects
explicitly: `projectLocks` maps a project to the identity (a `Nat`,
numbered by creation) of its current mutex, `heldBy` records which
session holds which mutex — a mutex removed from `projectLocks` keeps
existing and may still be held — and `removedDirs` logs every
`os.RemoveAll` of a workspace, in order. -/
structure Cache where
  entries : List (String × CacheEntry)
  projectLocks : List (String × Nat)
  heldBy : List (Nat × Nat)
  nextMutexID : Nat
  removedDirs : List String
deriving Repr, DecidableEq

/-- Model of `CacheExpirationTime` (30 minutes). -/
def cacheExpirationTime : Nat := 30

/-- Model of `MaxCachedProjects` (15). -/
def maxCachedProjects : Nat := 15

/-- Model of `LockProject(projectID)` executed by session `sid`: an empty id is
a no-op; otherwise the lock is created on first use and then acquired.
`none` means the acquisition would block (the mutex is currently
held); `some c'` is the state after a successful acquisition. -/
def lockProject (sid : Nat) (projectID : String) (c : Cache) : Option Cache :=
  if projectID = "" then some c
  else
    let (c, m) :=
      match alookup c.projectLocks projectID with
      | some m => (c, m)
      | none =>
        ({ c with
            projectLocks := c.projectLocks ++ [(projectID, c.nextMutexID)],
            nextMutexID := c.nextMutexID + 1 },
          c.nextMutexID)
    if (nlookup c.heldBy m).isSome then none
    else some { c with heldBy := c.heldBy ++ [(m, sid)] }

/-- Model of `UnlockProject(projectID)`: looks the project's CURRENT mutex up
in the map and unlocks that one. Returns the identity of the mutex it
unlocked (`none` when the id is empty or no lock is registered). -/
def unlockProject (projectID : String) (c : Cache) : Cache × Option Nat :=
  if projectID = "" then (c, none)
  else
    match alookup c.projectLocks projectID with
    | none => (c, none)
    | some m => ({ c with heldBy := nerase c.heldBy m }, some m)

/-- Model of `removeEntryLocked(projectID)`: removes the entry (deleting its
workspace directory when non-empty) and unconditionally deletes the
project's lock from the lock map — whether or not that mutex is
currently held. -/
def removeEntryLocked (projectID : String) (c : Cache) : Cache :=
  let c :=
    match alookup c.entries projectID with
    | none => c
    | some e =>
      let c :=
        if e.tempDir = "" then c
        else { c with removedDirs := c.removedDirs ++ [e.tempDir] }
      { c with entries := aerase c.entries projectID }
  { c with projectLocks := aerase c.projectLocks projectID }

/-- Model of `Get(projectID)` at time `now`: touches `lastAccessTime` on hit
and returns the touched entry. -/
def getEntry (now : Nat) (projectID : String) (c : Cache) : Cache × Option CacheEntry :=
  if projectID = "" then (c, none)
  else
    match alookup c.entries projectID with
    | none => (c, none)
    | some e =>
      let e' := { e with lastAccessTime := now }
      ({ c with entries := ainsert c.entries projectID e' }, some e')

/-- Model of `CheckContentHash(projectID, contentHash)` at time `now`. -/
def checkContentHash (now : Nat) (projectID contentHash : String) (c : Cache) :
    Cache × Bool :=
  let (c, e?) := getEntry now projectID c
  match e? with
  | none => (c, false)
  | some e => (c, e.contentHash == contentHash)

/-- The scan of `evictOldestLocked`: the running `(oldestID,
oldestTime)` pair, updated on a strictly earlier access time. -/
def findOldestAux : List (String × CacheEntry) → Option (String × Nat) → Option (String × Nat)
  | [], best => best
  | (id, e) :: rest, best =>
    match best with
    | none => findOldestAux rest (some (id, e.lastAccessTime))
    | some (oid, ot) =>
      if e.lastAccessTime < ot then findOldestAux rest (some (id, e.lastAccessTime))
      else findOldestAux rest (some (oid, ot))

/-- The id and access time of the least-recently-accessed entry. -/
def findOldest (entries : List (String × CacheEntry)) : Option (String × Nat) :=
  findOldestAux entries none

/-- Model of `evictOldestLocked`: removes the least-recently-accessed entry,
if any. -/
def evictOldestLocked (c : Cache) : Cache :=
  match findOldest c.entries with
  | none => c
  | some (oldestID, _) => removeEntryLocked oldestID c

/-- Model of `Set(projectID, entry)` at time `now`: stamps the access time,
evicts the LRU entry when inserting a new id into a full map, then
inserts or replaces. -/
def setEntry (projectID : String) (e : CacheEntry) (now : Nat) (c : Cache) : Cache :=
  if projectID = "" then c
  else
    let e := { e with lastAccessTime := now }
    let c :=
      if maxCachedProjects ≤ c.entries.length ∧ (alookup c.entries projectID).isNone
      then evictOldestLocked c
      else c
    { c with entries := ainsert c.entries projectID e }

/-- The background `cleanup` sweep at time `now`: collects every id
whose entry has been idle longer than `CacheExpirationTime`, then
removes each via `removeEntryLocked` — without consulting the
project-lock state. -/
def cleanup (now : Nat) (c : Cache) : Cache :=
  let toRemove :=
    (c.entries.filter (fun p => cacheExpirationTime < now - p.2.lastAccessTime)).map Prod.fst
  toRemove.foldl (fun c id => removeEntryLocked id c) c

/-- The `CompileResult` fields the cache and finalisation logic
produce (timings and request ids are environment-dependent and
omitted). -/
structure CompileResult where
  success : Bool
  pdfData : List Nat
  sha256 : String
  cacheHit : Bool
  errorMessage : String
deriving Repr, DecidableEq

/-- Model of `CacheSession.TryServeCachedResult(files, ...)` at time `now` for
the session's project: serves the cached PDF iff the file-set
fingerprint matches the stored one and the stored PDF is non-empty. -/
def tryServeCachedResult (h : String → String) (files : List FileEntry) (now : Nat)
    (projectID : String) (c : Cache) : Cache × Option CompileResult :=
  if files.isEmpty then (c, none)
  else
    let contentHash := hashFileSet h files
    let (c, ok) := checkContentHash now projectID contentHash c
    if !ok then (c, none)
    else
      let (c, e?) := getEntry now projectID c
      match e? with
      | none => (c, none)
      | some e =>
        if e.lastPDFData.isEmpty then (c, none)
        else
          (c, some { success := true, pdfData := e.lastPDFData, sha256 := e.lastSHA256,
                     cacheHit := true, errorMessage := "" })

/-- A cached entry for project `"p"` whose last access lies beyond
the expiry window at sweep time. -/
def entryP : CacheEntry :=
  { projectID := "p", tempDir := "/tmp/wsp", fileHashes := [], contentHash := "h0",
    lastPDFData := [37, 80, 68, 70], lastSHA256 := "s0", lastAccessTime := 0 }

/-- Cache state before the trace: one entry for `"p"`, no locks. -/
def cacheC0 : Cache :=
  { entries := [("p", entryP)], projectLocks := [], heldBy := [], nextMutexID := 0,
    removedDirs := [] }

/-- State after session 1 acquires `"p"`'s lock (mutex 0). -/
def cacheC1 : Cache :=
  { entries := [("p", entryP)], projectLocks := [("p", 0)], heldBy := [(0, 1)],
    nextMutexID := 1, removedDirs := [] }

/-- State after the sweep at minute 100 and session 2's acquisition:
a second mutex (1) for `"p"` exists and both sessions hold a
project-`"p"` mutex. -/
def cacheC3 : Cache :=
  { entries := [], projectLocks := [("p", 1)], heldBy := [(0, 1), (1, 2)],
    nextMutexID := 2, removedDirs := ["/tmp/wsp"] }

/-- The ownership-relevant fields of a `compileSession`. -/
structure SessionState where
  projectID : String
  tempDir : String
  shouldCleanup : Bool
  isIncremental : Bool
deriving Repr, DecidableEq

/-- Model of `newCompileSession`: cleanup defaults to on, no workspace yet. -/
def newSession (projectID : String) : SessionState :=
  { projectID := projectID, tempDir := "", shouldCleanup := true, isIncremental := false }

/-- Model of `attachCachedTempDir`: for a project request, adopt the cached
workspace when the cache holds one (`cachedTempDir`, `none` when no
entry or an empty `TempDir`) and `os.Stat` succeeds on it (`statOk`);
adopting clears `shouldCleanup`. -/
def attachCachedTempDir (cachedTempDir : Option String) (statOk : Bool)
    (s : SessionState) : SessionState :=
  if s.projectID = "" then s
  else
    match cachedTempDir with
    | none => s
    | some d =>
      if d = "" then s
      else if statOk = false then s
      else { s with tempDir := d, isIncremental := true, shouldCleanup := false }

/-- Model of `ensureTempDir` (with `os.MkdirTemp` succeeding and yielding
`freshDir`): creates a workspace when none is attached, and for a
project request immediately clears `shouldCleanup` — before knowing
whether the compile will succeed. -/
def ensureTempDir (freshDir : String) (s : SessionState) : SessionState :=
  if s.tempDir ≠ "" then s
  else
    let s := { s with tempDir := freshDir }
    if s.projectID ≠ "" then { s with shouldCleanup := false } else s

/-- The session `cleanup` deferred in `Compile`: whether
`os.RemoveAll(tempDir)` runs when the session ends. No path between
workspace creation and `cleanup` ever sets `shouldCleanup` back, so
this value is the same on every outcome, success or failure. -/
def sessionCleanupRemoves (s : SessionState) : Bool :=
  s.shouldCleanup && !(s.tempDir == "")

/-- First four bytes of a valid PDF: `%PDF`. -/
def pdfMagic : List Nat := [37, 80, 68, 70]

/-- Model of `finalize`, reduced to its success/failure decision: `pdfRead` is
the attempted `os.ReadFile` of the output PDF, `exitCode` the
recorded toolchain exit code (`-1` for non-exit errors), `hb` the
SHA-256 of the PDF bytes. -/
def finalizeResult (hb : List Nat → String) (pdfRead : Option (List Nat))
    (exitCode : Int) : CompileResult :=
  match pdfRead with
  | some pdfData =>
    if pdfData.length < 4 ∨ pdfData.take 4 ≠ pdfMagic then
      { success := false, pdfData := [], sha256 := "", cacheHit := false,
        errorMessage := "Invalid PDF format" }
    else if 2 < exitCode then
      { success := false, pdfData := [], sha256 := "", cacheHit := false,
        errorMessage := "LaTeX toolchain exited with code " ++ toString exitCode }
    else
      { success := true, pdfData := pdfData, sha256 := hb pdfData, cacheHit := false,
        errorMessage := "" }
  | none =>
    { success := false, pdfData := [], sha256 := "", cacheHit := false,
      errorMessage := "PDF file not generated" }

/-- Whether `p` occurs at the head of `l`. -/
def listHasPrefix : List Char → List Char → Bool
  | _, [] => true
  | [], _ :: _ => false
  | a :: l, b :: p => a = b && listHasPrefix l p

/-- Whether `p` occurs anywhere in `l`. -/
def listHasSub : List Char → List Char → Bool
  | [], p => p.isEmpty
  | a :: rest, p => listHasPrefix (a :: rest) p || listHasSub rest p

/-- Go `strings.Contains(s, pat)`. -/
def containsSub (s pat : String) : Bool := listHasSub s.toList pat.toList

/-- Go `strings.HasSuffix(s, t)`. -/
def strEndsWith (s t : String) : Bool := listHasPrefix s.toList.reverse t.toList.reverse

/-- Go `strings.ToLower` (ASCII case folding suffices here). -/
def strToLower (s : String) : String := String.mk (s.toList.map Char.toLower)

/-- Splitting a character list at `/` separators. -/
def splitSlashAux : List Char → List Char → List String
  | [], cur => [String.mk cur.reverse]
  | c :: rest, cur =>
    if c = '/' then String.mk cur.reverse :: splitSlashAux rest []
    else splitSlashAux rest (c :: cur)

/-- Go `strings.Split(p, "/")`. -/
def splitSlash (p : String) : List String := splitSlashAux p.toList []

/-- One pass of Go `path/filepath.Clean`'s lexical algorithm over the
slash-separated components: empty and `.` components are dropped,
`..` pops the previous component (kept verbatim at the start of a
relative path, dropped at the root of an absolute one). `acc` holds
the emitted components in reverse. -/
def cleanComponents (rooted : Bool) : List String → List String → List String
  | acc, [] => acc.reverse
  | acc, c :: rest =>
    if c = "" ∨ c = "." then cleanComponents rooted acc rest
    else if c = ".." then
      match acc with
      | [] =>
        if rooted then cleanComponents rooted [] rest
        else cleanComponents rooted [".."] rest
      | a :: as =>
        if a = ".." then cleanComponents rooted (c :: a :: as) rest
        else cleanComponents rooted as rest
    else cleanComponents rooted (c :: acc) rest

/-- Go `filepath.Clean` for Unix (slash-separated) paths. -/
def filepathClean (p : String) : String :=
  if p = "" then "."
  else
    let rooted := listHasPrefix p.toList ['/']
    let body := String.intercalate "/" (cleanComponents rooted [] (splitSlash p))
    if rooted then
      if body = "" then "/" else "/" ++ body
    else
      if body = "" then "." else body

/-- Go `filepath.Join` of two elements: empty elements are dropped,
the rest joined with `/`, and the result cleaned. -/
def filepathJoin (a b : String) : String :=
  if a = "" ∧ b = "" then ""
  else if a = "" then filepathClean b
  else if b = "" then filepathClean a
  else filepathClean (a ++ "/" ++ b)

/-- A single file write performed during workspace materialisation. -/
structure FileWrite where
  dest : String
  data : String
deriving Repr, DecidableEq

/-- Model of `writeFile(tempDir, file)`: the destination is
`filepath.Join(tempDir, file.Path)` — no path validation of any kind;
base64 content is decoded by `decode`, text content written as-is.
The only failure is a failed base64 decode. -/
def writeFileOp (decode : String → Option String) (tempDir : String) (f : FileEntry) :
    Except String FileWrite :=
  if f.encoding = "base64" then
    match decode f.content with
    | none => Except.error ("failed to decode base64 file " ++ f.path)
    | some d => Except.ok { dest := filepathJoin tempDir f.path, data := d }
  else Except.ok { dest := filepathJoin tempDir f.path, data := f.content }

/-- Model of `createFileStructure(tempDir, files)`: performs the same
per-file write as `writeFile` for every file in order, aborting on
the first error. Returns the performed writes. -/
def createFileStructure (decode : String → Option String) (tempDir : String) :
    List FileEntry → Except String (List FileWrite)
  | [] => Except.ok []
  | f :: rest =>
    match writeFileOp decode tempDir f with
    | Except.error e => Except.error e
    | Except.ok w =>
      match createFileStructure decode tempDir rest with
      | Except.error e => Except.error e
      | Except.ok ws => Except.ok (w :: ws)

/-- Whether a destination path lies inside the workspace directory. -/
def insideDir (ws p : String) : Bool := listHasPrefix p.toList (ws ++ "/").toList

/-- A request file whose path climbs out of the workspace. -/
def trFile : FileEntry := { path := "../../etc/passwd", content := "oops", encoding := "" }

/-- The three-valued bibliography tool of the strategy selector. -/
inductive BibliographyTool
  | bibNone
  | bibtex
  | biber
deriving Repr, DecidableEq

/-- Model of `needsBibliography(content, files)`: any `.bib` file, or any of
the citation/bibliography commands in the main content. -/
def needsBibliography (content : String) (files : List FileEntry) : Bool :=
  files.any (fun f => strEndsWith f.path ".bib")
  || containsSub content "\\bibliography\x7b"
  || containsSub content "\\addbibresource\x7b"
  || containsSub content "\\cite\x7b"
  || containsSub content "\\citep\x7b"
  || containsSub content "\\citet\x7b"
  || containsSub content "\\nocite\x7b"

/-- The contents `detectBibliographyTool` scans: the main content,
then every non-base64 `.tex`/`.sty`/`.cls` file's content, in file
order. -/
def scanContents (mainContent : String) (files : List FileEntry) : List String :=
  mainContent ::
    (files.filter (fun f =>
      !(f.encoding == "base64")
      && (strEndsWith f.path ".tex" || strEndsWith f.path ".sty"
          || strEndsWith f.path ".cls"))).map
      (fun f => f.content)

/-- Case 1 of the scanner's switch: an explicit bibtex backend. -/
def bibtexBackendHit (lower : String) : Bool :=
  containsSub lower "backend=bibtex" || containsSub lower "backend = bibtex"

/-- Case 2: an explicit biber backend. -/
def biberBackendHit (lower : String) : Bool :=
  containsSub lower "backend=biber" || containsSub lower "backend = biber"

/-- Case 3: a biblatex package import. -/
def biblatexImportHit (lower : String) : Bool :=
  containsSub lower "\\usepackage{biblatex}"
  || (containsSub lower "\\usepackage[" && containsSub lower "{biblatex}")
  || containsSub lower "\\requirepackage{biblatex}"
  || (containsSub lower "\\requirepackage[" && containsSub lower "{biblatex}")

/-- Case 4: biblatex-specific commands. -/
def biblatexCommandHit (lower : String) : Bool :=
  containsSub lower "\\addbibresource" || containsSub lower "\\printbibliography"
  || containsSub lower "\\executebibliographyoptions"

/-- The scanning loop of `detectBibliographyTool`: each content is
lowercased and run through the switch; an explicit bibtex backend
returns immediately, the other three cases mark `seenBiblatex`. -/
def detectLoop : List String → Bool → BibliographyTool
  | [], seen => if seen then BibliographyTool.biber else BibliographyTool.bibtex
  | content :: rest, seen =>
    let lower := strToLower content
    if bibtexBackendHit lower then BibliographyTool.bibtex
    else if biberBackendHit lower then detectLoop rest true
    else if biblatexImportHit lower then detectLoop rest true
    else if biblatexCommandHit lower then detectLoop rest true
    else detectLoop rest seen

/-- Model of `detectBibliographyTool(mainContent, files)`. -/
def detectBibliographyTool (mainContent : String) (files : List FileEntry) :
    BibliographyTool :=
  detectLoop (scanContents mainContent files) false

/-- The bibliography tool `determineStrategy` records when a
bibliography is needed (falling back to bibtex should the detector
return none). -/
def strategyBibTool (content : String) (files : List FileEntry) : BibliographyTool :=
  if needsBibliography content files then
    let t := detectBibliographyTool content files
    if t = BibliographyTool.bibNone then BibliographyTool.bibtex else t
  else BibliographyTool.bibNone

/-- The selection rule exactly as the claim words it: biber if the
scanned contents import biblatex or contain `\addbibresource`,
`\printbibliography`, or `backend=biber`; otherwise bibtex, with an
explicit `backend=bibtex` always selecting bibtex. -/
def claimedBibliographyTool (mainContent : String) (files : List FileEntry) :
    BibliographyTool :=
  let cs := scanContents mainContent files
  if cs.any (fun c => containsSub (strToLower c) "backend=bibtex") then BibliographyTool.bibtex
  else if cs.any (fun c =>
      biblatexImportHit (strToLower c)
      || containsSub (strToLower c) "\\addbibresource"
      || containsSub (strToLower c) "\\printbibliography"
      || containsSub (strToLower c) "backend=biber") then BibliographyTool.biber
  else BibliographyTool.bibtex

/-- The amended selection rule, matching the code: bibtex if any
scanned content contains an explicit bibtex backend (`backend=bibtex`,
spaces allowed around `=`); else biber if any scanned content
contains a biber backend (spaces allowed), imports biblatex, or
contains `\addbibresource`, `\printbibliography`, or
`\executebibliographyoptions`; else bibtex. All matching is
case-insensitive. -/
def amendedBibliographyTool (mainContent : String) (files : List FileEntry) :
    BibliographyTool :=
  let cs := scanContents mainContent files
  if cs.any (fun c => bibtexBackendHit (strToLower c)) then BibliographyTool.bibtex
  else if cs.any (fun c =>
      biberBackendHit (strToLower c) || biblatexImportHit (strToLower c)
      || biblatexCommandHit (strToLower c)) then BibliographyTool.biber
  else BibliographyTool.bibtex

/-- Main content for the C9 counterexample: a biblatex-specific
command that is in the code's trigger list but not in the claim's. -/
def execBibContent : String := "\\executebibliographyoptions{maxnames}"

/-- A `.bib` file, making `needsBibliography` true. -/
def bibFileC9 : FileEntry := { path := "refs.bib", content := "@article", encoding := "" }

/-- The loop of `findMainFile`: skip base64 files and non-`.tex`
paths; return the first `.tex` containing `\documentclass` (flag
true), else fall back to the first `.tex` seen. -/
def findMainFileAux : List FileEntry → Option FileEntry → Option (FileEntry × Bool)
  | [], fallback => fallback.map (fun f => (f, false))
  | f :: rest, fallback =>
    if f.encoding = "base64" then findMainFileAux rest fallback
    else if !(strEndsWith f.path ".tex") then findMainFileAux rest fallback
    else if containsSub f.content "\\documentclass" then some (f, true)
    else
      match fallback with
      | none => findMainFileAux rest (some f)
      | some _ => findMainFileAux rest fallback

/-- Model of `findMainFile(files)`. -/
def findMainFile (files : List FileEntry) : Option (FileEntry × Bool) :=
  findMainFileAux files none

/-- The error message of `resolveMainFilePaths`. -/
def noMainFileError : String := "No LaTeX source (.tex) file found in request"

/-- The main-file path the session records (`extractMainContent`):
empty when `findMainFile` finds nothing. -/
def mainFilePathOf (files : List FileEntry) : String :=
  match findMainFile files with
  | some (f, _) => f.path
  | none => ""

/-- Model of `resolveMainFilePaths`, reduced to its failure decision: the
no-main-file error is returned iff the recorded main path is empty. -/
def resolveMainFileOutcome (files : List FileEntry) : Option String :=
  if mainFilePathOf files = "" then some noMainFileError else none

/-- A base64-encoded `.tex` file; its content is the base64 encoding
of a string containing `\documentclass`. -/
def b64TexFile : FileEntry :=
  { path := "main.tex", content := "XGRvY3VtZW50Y2xhc3M=", encoding := "base64" }

/-- Model of `FileChanges`: the diff output. -/
structure FileChanges where
  added : List FileEntry
  modified : List FileEntry
  deleted : List String
  hasTexChanges : Bool
  hasBibChanges : Bool
  hasAssetChanges : Bool
deriving Repr, DecidableEq

/-- The zero-valued change set `diffFiles` starts from. -/
def emptyChanges : FileChanges :=
  { added := [], modified := [], deleted := [], hasTexChanges := false,
    hasBibChanges := false, hasAssetChanges := false }

/-- Model of `categorizeFileChange`: set the suffix-group flag of a path. -/
def categorizeFileChange (path : String) (c : FileChanges) : FileChanges :=
  if strEndsWith path ".tex" || strEndsWith path ".sty" || strEndsWith path ".cls" then
    { c with hasTexChanges := true }
  else if strEndsWith path ".bib" then { c with hasBibChanges := true }
  else { c with hasAssetChanges := true }

/-- First loop of `diffFiles`: classify each current file as added or
modified (appending in order) while recording the seen paths. -/
def diffLoop1 (h : String → String) (cached : List (String × String)) :
    List FileEntry → List String × FileChanges → List String × FileChanges
  | [], acc => acc
  | f :: rest, (seen, changes) =>
    let seen := f.path :: seen
    let changes :=
      match alookup cached f.path with
      | some cachedHash =>
        if h f.content ≠ cachedHash then
          categorizeFileChange f.path { changes with modified := changes.modified ++ [f] }
        else changes
      | none =>
        categorizeFileChange f.path { changes with added := changes.added ++ [f] }
    diffLoop1 h cached rest (seen, changes)

/-- Second loop of `diffFiles`: every cached path not seen in the
current set is deleted. -/
def diffLoop2 (seen : List String) : List (String × String) → FileChanges → FileChanges
  | [], changes => changes
  | p :: rest, changes =>
    let changes :=
      if seen.contains p.1 then changes
      else categorizeFileChange p.1 { changes with deleted := changes.deleted ++ [p.1] }
    diffLoop2 seen rest changes

/-- Model of `diffFiles(currentFiles, cachedHashes)` with per-file digest `h`. -/
def diffFiles (h : String → String) (currentFiles : List FileEntry)
    (cachedHashes : List (String × String)) : FileChanges :=
  let acc := diffLoop1 h cachedHashes currentFiles ([], emptyChanges)
  diffLoop2 acc.1 cachedHashes acc.2

/-- Model of `buildFileHashMap(files)`: path to content digest, built by Go
map insertion in file order. -/
def buildFileHashMap (h : String → String) (files : List FileEntry) :
    List (String × String) :=
  files.foldl (fun m f => ainsert m f.path (h f.content)) []

/-- The per-path content of a file list (first occurrence wins). -/
def contentAt (files : List FileEntry) (p : String) : Option String :=
  alookup (files.map (fun f => (f.path, f.content))) p

/-- The added-file test of the first diff loop. -/
def isAddedFile (cached : List (String × String)) (f : FileEntry) : Bool :=
  (alookup cached f.path).isNone

/-- The modified-file test of the first diff loop. -/
def isModifiedFile (h : String → String) (cached : List (String × String))
    (f : FileEntry) : Bool :=
  match alookup cached f.path with
  | some cachedHash => h f.content != cachedHash
  | none => false

/-- Session state of a fresh-workspace request for project `"p1"`:
what `cleanup` sees on EVERY outcome of that request, including
failures. -/
def sessFreshProj : SessionState :=
  ensureTempDir "/tmp/latex-1" (attachCachedTempDir none true (newSession "p1"))

/-- Session state of a request without a project id. -/
def sessFreshNoProj : SessionState :=
  ensureTempDir "/tmp/latex-2" (attachCachedTempDir none true (newSession ""))

/-- Concrete file set exercising the cache-hit path. -/
def wfilesC2 : List FileEntry := [{ path := "main.tex", content := "x", encoding := "" }]

/-- Concrete cache entry whose fingerprint matches `wfilesC2`. -/
def wentryC2 : CacheEntry :=
  { projectID := "p2", tempDir := "", fileHashes := [],
    contentHash := hashFileSet id wfilesC2, lastPDFData := [37, 80, 68, 70, 1],
    lastSHA256 := "d", lastAccessTime := 0 }

/-- Concrete cache holding `wentryC2`. -/
def wcacheC2 : Cache :=
  { entries := [("p2", wentryC2)], projectLocks := [], heldBy := [], nextMutexID := 0,
    removedDirs := [] }

/-- Entry used by the C3 witness. -/
def wentryC3 : CacheEntry :=
  { projectID := "q3", tempDir := "/tmp/wq3", fileHashes := [], contentHash := "h3",
    lastPDFData := [], lastSHA256 := "", lastAccessTime := 0 }

/-- Current and previous file lists for the C8 witness. -/
def wcurC8 : List FileEntry := [{ path := "a.tex", content := "x", encoding := "" }]

theorem alookup_ainsert_self {β : Type} (m : List (String × β)) (k : String) (v : β) :
    alookup (ainsert m k v) k = some v := by
  induction m with
  | nil => simp [ainsert, alookup]
  | cons p rest ih =>
    obtain ⟨k', v'⟩ := p
    by_cases hk : k' = k
    · simp [ainsert, alookup, hk]
    · simp [ainsert, alookup, hk, ih]

theorem alookup_ainsert_ne {β : Type} (m : List (String × β)) (k k' : String) (v : β)
    (hne : k ≠ k') : alookup (ainsert m k v) k' = alookup m k' := by
  induction m with
  | nil => simp [ainsert, alookup, hne]
  | cons p rest ih =>
    obtain ⟨k₀, v₀⟩ := p
    by_cases hk : k₀ = k
    · subst hk
      simp [ainsert, alookup, hne]
    · by_cases hk' : k₀ = k'
      · subst hk'
        simp [ainsert, alookup, hk]
      · simp [ainsert, alookup, hk, hk', ih]

theorem alookup_eq_none_of_not_mem {β : Type} (m : List (String × β)) (k : String)
    (h : k ∉ m.map Prod.fst) : alookup m k = none := by
  induction m with
  | nil => rfl
  | cons p rest ih =>
    obtain ⟨k', v'⟩ := p
    simp only [List.map_cons, List.mem_cons] at h
    push_neg at h
    have hne : k' ≠ k := fun hc => h.1 hc.symm
    simp [alookup, hne, ih h.2]

theorem mem_of_alookup_eq_some {β : Type} (m : List (String × β)) (k : String) (v : β)
    (h : alookup m k = some v) : (k, v) ∈ m := by
  induction m with
  | nil => simp [alookup] at h
  | cons p rest ih =>
    obtain ⟨k', v'⟩ := p
    by_cases hk : k' = k
    · subst hk
      simp [alookup] at h
      simp [h]
    · simp only [alookup, if_neg hk] at h
      exact List.mem_cons_of_mem _ (ih h)

theorem alookup_isSome_of_mem {β : Type} (m : List (String × β)) (k : String) (v : β)
    (h : (k, v) ∈ m) : (alookup m k).isSome := by
  induction m with
  | nil => simp at h
  | cons p rest ih =>
    obtain ⟨k', v'⟩ := p
    rcases List.mem_cons.mp h with heq | hmem
    · injection heq with hk hv
      subst hk
      simp [alookup]
    · by_cases hk : k' = k
      · simp [alookup, hk]
      · simpa [alookup, hk] using ih hmem

theorem alookup_eq_some_of_mem_nodup {β : Type} (m : List (String × β)) (k : String) (v : β)
    (hnd : (m.map Prod.fst).Nodup) (h : (k, v) ∈ m) : alookup m k = some v := by
  induction m with
  | nil => simp at h
  | cons p rest ih =>
    obtain ⟨k', v'⟩ := p
    simp only [List.map_cons, List.nodup_cons] at hnd
    rcases List.mem_cons.mp h with heq | hmem
    · injection heq with hk hv
      subst hk; subst hv
      simp [alookup]
    · have hk : k' ≠ k := by
        intro hc
        subst hc
        exact hnd.1 (List.mem_map.mpr ⟨(k', v), hmem, rfl⟩)
      simp [alookup, hk, ih hnd.2 hmem]

theorem aerase_of_not_mem {β : Type} (m : List (String × β)) (k : String)
    (h : k ∉ m.map Prod.fst) : aerase m k = m := by
  induction m with
  | nil => rfl
  | cons p rest ih =>
    obtain ⟨k', v'⟩ := p
    simp only [List.map_cons, List.mem_cons] at h
    push_neg at h
    have hne : k' ≠ k := fun hc => h.1 hc.symm
    simp [aerase, hne, ih h.2]

theorem ainsert_of_not_mem {β : Type} (m : List (String × β)) (k : String) (v : β)
    (h : k ∉ m.map Prod.fst) : ainsert m k v = m ++ [(k, v)] := by
  induction m with
  | nil => rfl
  | cons p rest ih =>
    obtain ⟨k', v'⟩ := p
    simp only [List.map_cons, List.mem_cons] at h
    push_neg at h
    have hne : k' ≠ k := fun hc => h.1 hc.symm
    simp [ainsert, hne, ih h.2]

theorem aerase_length_of_mem {β : Type} (m : List (String × β)) (k : String)
    (h : k ∈ m.map Prod.fst) : (aerase m k).length + 1 = m.length := by
  induction m with
  | nil => simp at h
  | cons p rest ih =>
    obtain ⟨k', v'⟩ := p
    by_cases hk : k' = k
    · simp [aerase, hk]
    · simp only [List.map_cons, List.mem_cons] at h
      rcases h with heq | hmem
      · exact absurd heq.symm hk
      · simp [aerase, hk, ih hmem]

theorem not_mem_map_fst_aerase {β : Type} (m : List (String × β)) (k : String)
    (hnd : (m.map Prod.fst).Nodup) : k ∉ (aerase m k).map Prod.fst := by
  induction m with
  | nil => simp [aerase]
  | cons p rest ih =>
    obtain ⟨k', v'⟩ := p
    simp only [List.map_cons, List.nodup_cons] at hnd
    by_cases hk : k' = k
    · subst hk
      simpa [aerase] using hnd.1
    · simp only [aerase, if_neg hk, List.map_cons, List.mem_cons]
      push_neg
      exact ⟨fun hc => hk hc.symm, ih hnd.2⟩

theorem mem_map_fst_aerase_of_ne {β : Type} (m : List (String × β)) (k r : String)
    (hr : r ∈ m.map Prod.fst) (hne : r ≠ k) : r ∈ (aerase m k).map Prod.fst := by
  induction m with
  | nil => simp at hr
  | cons p rest ih =>
    obtain ⟨k', v'⟩ := p
    simp only [List.map_cons, List.mem_cons] at hr
    by_cases hk : k' = k
    · subst hk
      rcases hr with heq | hmem
      · exact absurd heq hne
      · simpa [aerase] using hmem
    · rcases hr with heq | hmem
      · simp [aerase, hk, heq]
      · simp [aerase, hk, ih hmem]

theorem ainsert_length_of_isSome {β : Type} (m : List (String × β)) (k : String) (v : β)
    (h : (alookup m k).isSome) : (ainsert m k v).length = m.length := by
  induction m with
  | nil => simp [alookup] at h
  | cons p rest ih =>
    obtain ⟨k', v'⟩ := p
    by_cases hk : k' = k
    · simp [ainsert, hk]
    · simp only [alookup, if_neg hk] at h
      simp [ainsert, hk, ih h]

theorem mem_map_fst_of_mem_aerase {β : Type} (m : List (String × β)) (k r : String)
    (h : r ∈ (aerase m k).map Prod.fst) : r ∈ m.map Prod.fst := by
  induction m with
  | nil => simp [aerase] at h
  | cons p rest ih =>
    obtain ⟨k', v'⟩ := p
    by_cases hk : k' = k
    · simp only [aerase, if_pos hk] at h
      simp [h]
    · simp only [aerase, if_neg hk, List.map_cons, List.mem_cons] at h
      rcases h with heq | hmem
      · simp [heq]
      · simp [ih hmem]

theorem not_mem_of_alookup_eq_none {β : Type} (m : List (String × β)) (k : String)
    (h : alookup m k = none) : k ∉ m.map Prod.fst := by
  intro hmem
  obtain ⟨⟨k', v⟩, hm, hfst⟩ := List.mem_map.mp hmem
  have hk : k' = k := hfst
  subst hk
  have := alookup_isSome_of_mem m k' v hm
  simp [h] at this

theorem findOldestAux_isSome (entries : List (String × CacheEntry)) (p : String × Nat) :
    (findOldestAux entries (some p)).isSome := by
  induction entries generalizing p with
  | nil => simp [findOldestAux]
  | cons q rest ih =>
    obtain ⟨id, e⟩ := q
    obtain ⟨oid, ot⟩ := p
    by_cases hlt : e.lastAccessTime < ot
    · simpa [findOldestAux, hlt] using ih (id, e.lastAccessTime)
    · simpa [findOldestAux, hlt] using ih (oid, ot)

theorem findOldestAux_min (entries : List (String × CacheEntry)) (best : Option (String × Nat))
    (q : String) (t : Nat) (hres : findOldestAux entries best = some (q, t)) :
    (best = some (q, t) ∨ ∃ e, (q, e) ∈ entries ∧ e.lastAccessTime = t)
    ∧ (∀ x ∈ entries, t ≤ x.2.lastAccessTime)
    ∧ (∀ b tb, best = some (b, tb) → t ≤ tb) := by
  induction entries generalizing best with
  | nil =>
    simp only [findOldestAux] at hres
    refine ⟨Or.inl hres, by simp, ?_⟩
    intro b tb hb
    rw [hb] at hres
    injection hres with hres
    injection hres with h1 h2
    omega
  | cons p rest ih =>
    obtain ⟨id, e⟩ := p
    match best with
    | none =>
      simp only [findOldestAux] at hres
      obtain ⟨hmem, hmin, hbound⟩ := ih (some (id, e.lastAccessTime)) hres
      have hte : t ≤ e.lastAccessTime := hbound id e.lastAccessTime rfl
      refine ⟨?_, ?_, ?_⟩
      · rcases hmem with heq | ⟨e', hmem', ht'⟩
        · injection heq with heq
          injection heq with h1 h2
          exact Or.inr ⟨e, by simp [← h1], h2⟩
        · exact Or.inr ⟨e', List.mem_cons_of_mem _ hmem', ht'⟩
      · intro x hx
        rcases List.mem_cons.mp hx with heq | hmem'
        · subst heq
          exact hte
        · exact hmin x hmem'
      · intro b tb hb
        cases hb
    | some (oid, ot) =>
      by_cases hlt : e.lastAccessTime < ot
      · simp only [findOldestAux, if_pos hlt] at hres
        obtain ⟨hmem, hmin, hbound⟩ := ih (some (id, e.lastAccessTime)) hres
        have hte : t ≤ e.lastAccessTime := hbound id e.lastAccessTime rfl
        refine ⟨?_, ?_, ?_⟩
        · rcases hmem with heq | ⟨e', hmem', ht'⟩
          · injection heq with heq
            injection heq with h1 h2
            exact Or.inr ⟨e, by simp [← h1], h2⟩
          · exact Or.inr ⟨e', List.mem_cons_of_mem _ hmem', ht'⟩
        · intro x hx
          rcases List.mem_cons.mp hx with heq | hmem'
          · subst heq
            exact hte
          · exact hmin x hmem'
        · intro b tb hb
          injection hb with hb
          injection hb with h1 h2
          omega
      · simp only [findOldestAux, if_neg hlt] at hres
        obtain ⟨hmem, hmin, hbound⟩ := ih (some (oid, ot)) hres
        have hto : t ≤ ot := hbound oid ot rfl
        refine ⟨?_, ?_, ?_⟩
        · rcases hmem with heq | ⟨e', hmem', ht'⟩
          · exact Or.inl heq
          · exact Or.inr ⟨e', List.mem_cons_of_mem _ hmem', ht'⟩
        · intro x hx
          rcases List.mem_cons.mp hx with heq | hmem'
          · subst heq
            exact le_trans hto (Nat.le_of_not_lt hlt)
          · exact hmin x hmem'
        · intro b tb hb
          injection hb with hb
          injection hb with h1 h2
          omega

/-- The scan of `evictOldestLocked` returns an entry of the list with
the globally minimal access time. -/
theorem findOldest_spec (entries : List (String × CacheEntry)) (q : String) (t : Nat)
    (hres : findOldest entries = some (q, t)) :
    (∃ e, (q, e) ∈ entries ∧ e.lastAccessTime = t)
    ∧ ∀ x ∈ entries, t ≤ x.2.lastAccessTime := by
  obtain ⟨hmem, hmin, -⟩ := findOldestAux_min entries none q t hres
  rcases hmem with heq | hmem
  · cases heq
  · exact ⟨hmem, hmin⟩

theorem findOldest_isSome (entries : List (String × CacheEntry)) (hne : entries ≠ []) :
    (findOldest entries).isSome := by
  match entries, hne with
  | (id, e) :: rest, _ =>
    simpa [findOldest, findOldestAux] using findOldestAux_isSome rest (id, e.lastAccessTime)

/-- C2. `TryServeCachedResult` returns a result iff the submitted
file set is non-empty, the stored fingerprint for the project equals
the fingerprint of the submitted files, and the stored PDF bytes are
non-empty; the result it returns is the success/cache-hit result
carrying exactly the stored PDF bytes and digest. -/
theorem tryServeCachedResult_spec (h : String → String) (files : List FileEntry)
    (now : Nat) (projectID : String) (c : Cache) (r : CompileResult)
    (hpid : projectID ≠ "") :
    (tryServeCachedResult h files now projectID c).2 = some r ↔
      files ≠ [] ∧ ∃ e, alookup c.entries projectID = some e ∧
        e.contentHash = hashFileSet h files ∧ e.lastPDFData ≠ [] ∧
        r = { success := true, pdfData := e.lastPDFData, sha256 := e.lastSHA256,
              cacheHit := true, errorMessage := "" } := by
  by_cases hemp : files = []
  · subst hemp
    simp [tryServeCachedResult]
  · have hne : files.isEmpty = false := by
      simpa [List.isEmpty_iff] using hemp
    rcases halo : alookup c.entries projectID with _ | e
    · simp [tryServeCachedResult, checkContentHash, getEntry, hne, hpid, halo, hemp]
    · have hlook2 : alookup (ainsert c.entries projectID { e with lastAccessTime := now })
          projectID = some { e with lastAccessTime := now } :=
        alookup_ainsert_self ..
      by_cases hch : e.contentHash = hashFileSet h files
      · have hbeq : (e.contentHash == hashFileSet h files) = true := by
          simpa using hch
        by_cases hpdf : e.lastPDFData = []
        · have hpb : e.lastPDFData.isEmpty = true := by simp [hpdf]
          simp only [tryServeCachedResult, checkContentHash, getEntry, hne, if_neg hpid,
            halo, hbeq, hlook2, hpb, Bool.not_true, Bool.false_eq_true, if_false,
            if_true]
          constructor
          · intro hr
            simp at hr
          · rintro ⟨-, e', he', -, hpdf', -⟩
            injection he' with he'
            subst he'
            exact (hpdf' hpdf).elim
        · have hpb : e.lastPDFData.isEmpty = false := by
            simpa [List.isEmpty_iff] using hpdf
          simp only [tryServeCachedResult, checkContentHash, getEntry, hne, if_neg hpid,
            halo, hbeq, hlook2, hpb, Bool.not_true, Bool.false_eq_true, if_false,
            if_true]
          constructor
          · intro hr
            refine ⟨hemp, e, rfl, hch, hpdf, ?_⟩
            simpa using hr.symm
          · rintro ⟨-, e', he', -, -, hr⟩
            injection he' with he'
            subst he'
            simp [hr]
      · have hbeq : (e.contentHash == hashFileSet h files) = false := by
          simpa using hch
        simp only [tryServeCachedResult, checkContentHash, getEntry, hne, if_neg hpid,
          halo, hbeq, Bool.not_false, Bool.false_eq_true, if_false, if_true]
        constructor
        · intro hr
          simp at hr
        · rintro ⟨-, e', he', hch', -, -⟩
          injection he' with he'
          subst he'
          exact (hch hch').elim

/-- Witness: the C2 theorem instantiated at a concrete hit. -/
theorem tryServeCachedResult_spec_witness :
    ("p2" : String) ≠ "" ∧
    ((tryServeCachedResult id wfilesC2 7 "p2" wcacheC2).2 =
        some { success := true, pdfData := [37, 80, 68, 70, 1], sha256 := "d",
               cacheHit := true, errorMessage := "" } ↔
      wfilesC2 ≠ [] ∧ ∃ e, alookup wcacheC2.entries "p2" = some e ∧
        e.contentHash = hashFileSet id wfilesC2 ∧ e.lastPDFData ≠ [] ∧
        ({ success := true, pdfData := [37, 80, 68, 70, 1], sha256 := "d",
           cacheHit := true, errorMessage := "" } : CompileResult) =
          { success := true, pdfData := e.lastPDFData, sha256 := e.lastSHA256,
            cacheHit := true, errorMessage := "" }) :=
  ⟨by decide,
    tryServeCachedResult_spec id wfilesC2 7 "p2" wcacheC2
      { success := true, pdfData := [37, 80, 68, 70, 1], sha256 := "d",
        cacheHit := true, errorMessage := "" } (by decide)⟩

/-- C3. `Set` with a non-empty id keeps the entry map within
`MaxCachedProjects` (15) entries; replacing an already-present id
never evicts (same size, no directory removed); inserting a new id
into a full map evicts exactly the entry with the smallest
`lastAccessTime` — the new entry list is the old one with precisely
that entry erased and the new binding appended — and deletes the
evicted entry's workspace directory when it has one. -/
theorem setEntry_spec (pid : String) (e : CacheEntry) (now : Nat) (c : Cache)
    (hpid : pid ≠ "") (hnd : (c.entries.map Prod.fst).Nodup)
    (hcap : c.entries.length ≤ maxCachedProjects) :
    (setEntry pid e now c).entries.length ≤ maxCachedProjects
    ∧ ((alookup c.entries pid).isSome →
        (setEntry pid e now c).entries.length = c.entries.length ∧
        (setEntry pid e now c).removedDirs = c.removedDirs)
    ∧ (c.entries.length = maxCachedProjects → alookup c.entries pid = none →
        ∃ q eq, (q, eq) ∈ c.entries ∧
          (∀ x ∈ c.entries, eq.lastAccessTime ≤ x.2.lastAccessTime) ∧
          (setEntry pid e now c).entries =
            aerase c.entries q ++ [(pid, { e with lastAccessTime := now })] ∧
          (setEntry pid e now c).removedDirs =
            c.removedDirs ++ (if eq.tempDir = "" then [] else [eq.tempDir])) := by
  by_cases hsome : (alookup c.entries pid).isSome
  · have hguard : ¬(maxCachedProjects ≤ c.entries.length ∧
        alookup c.entries pid = none) := by
      rintro ⟨-, hn⟩
      simp [hn] at hsome
    have hred : (setEntry pid e now c).entries =
        ainsert c.entries pid { e with lastAccessTime := now } := by
      simp [setEntry, hpid, hguard]
    have hredd : (setEntry pid e now c).removedDirs = c.removedDirs := by
      simp [setEntry, hpid, hguard]
    have hlen : (setEntry pid e now c).entries.length = c.entries.length := by
      rw [hred]
      exact ainsert_length_of_isSome _ _ _ hsome
    refine ⟨by rw [hlen]; exact hcap, fun _ => ⟨hlen, hredd⟩, ?_⟩
    intro _ hnone
    rw [hnone] at hsome
    simp at hsome
  · have hnone : alookup c.entries pid = none := Option.not_isSome_iff_eq_none.mp hsome
    have hpidnm : pid ∉ c.entries.map Prod.fst := not_mem_of_alookup_eq_none _ _ hnone
    by_cases hfull : maxCachedProjects ≤ c.entries.length
    · have h15 : c.entries.length = maxCachedProjects := le_antisymm hcap hfull
      have hne : c.entries ≠ [] := by
        intro hc
        rw [hc] at h15
        simp [maxCachedProjects] at h15
      obtain ⟨⟨q, t⟩, hfo⟩ := Option.isSome_iff_exists.mp (findOldest_isSome _ hne)
      obtain ⟨⟨eq, hqmem, hqt⟩, hmin⟩ := findOldest_spec _ _ _ hfo
      have halq : alookup c.entries q = some eq :=
        alookup_eq_some_of_mem_nodup _ _ _ hnd hqmem
      have hqkeys : q ∈ c.entries.map Prod.fst := List.mem_map.mpr ⟨(q, eq), hqmem, rfl⟩
      have hguard : maxCachedProjects ≤ c.entries.length ∧
          alookup c.entries pid = none := ⟨hfull, hnone⟩
      have hpidnm' : pid ∉ (aerase c.entries q).map Prod.fst :=
        fun hc => hpidnm (mem_map_fst_of_mem_aerase _ _ _ hc)
      have hred : (setEntry pid e now c).entries =
          aerase c.entries q ++ [(pid, { e with lastAccessTime := now })] := by
        by_cases htd : eq.tempDir = "" <;>
          simp [setEntry, hpid, hguard, evictOldestLocked, hfo, removeEntryLocked, halq,
            htd, ainsert_of_not_mem _ _ _ hpidnm']
      have hredd : (setEntry pid e now c).removedDirs =
          c.removedDirs ++ (if eq.tempDir = "" then [] else [eq.tempDir]) := by
        by_cases htd : eq.tempDir = "" <;>
          simp [setEntry, hpid, hguard, evictOldestLocked, hfo, removeEntryLocked, halq,
            htd]
      have hlen : (setEntry pid e now c).entries.length = c.entries.length := by
        rw [hred]
        have := aerase_length_of_mem c.entries q hqkeys
        simp only [List.length_append, List.length_cons, List.length_nil]
        omega
      refine ⟨by rw [hlen]; exact hcap, fun hs => absurd hs hsome, ?_⟩
      intro _ _
      refine ⟨q, eq, hqmem, ?_, hred, hredd⟩
      intro x hx
      rw [hqt]
      exact hmin x hx
    · have hguard : ¬(maxCachedProjects ≤ c.entries.length ∧
          alookup c.entries pid = none) := fun hc => hfull hc.1
      have hred : (setEntry pid e now c).entries =
          c.entries ++ [(pid, { e with lastAccessTime := now })] := by
        simp [setEntry, hpid, hguard, ainsert_of_not_mem _ _ _ hpidnm]
      refine ⟨?_, fun hs => absurd hs hsome, fun h15 _ => absurd (le_of_eq h15.symm) hfull⟩
      rw [hred]
      simp only [List.length_append, List.length_cons, List.length_nil]
      omega

/-- Witness: the C3 theorem instantiated at a concrete cache. -/
theorem setEntry_spec_witness :
    (("q3" : String) ≠ "" ∧ (cacheC0.entries.map Prod.fst).Nodup ∧
      cacheC0.entries.length ≤ maxCachedProjects) ∧
    ((setEntry "q3" wentryC3 9 cacheC0).entries.length ≤ maxCachedProjects
    ∧ ((alookup cacheC0.entries "q3").isSome →
        (setEntry "q3" wentryC3 9 cacheC0).entries.length = cacheC0.entries.length ∧
        (setEntry "q3" wentryC3 9 cacheC0).removedDirs = cacheC0.removedDirs)
    ∧ (cacheC0.entries.length = maxCachedProjects →
        alookup cacheC0.entries "q3" = none →
        ∃ q eq, (q, eq) ∈ cacheC0.entries ∧
          (∀ x ∈ cacheC0.entries, eq.lastAccessTime ≤ x.2.lastAccessTime) ∧
          (setEntry "q3" wentryC3 9 cacheC0).entries =
            aerase cacheC0.entries q ++ [("q3", { wentryC3 with lastAccessTime := 9 })] ∧
          (setEntry "q3" wentryC3 9 cacheC0).removedDirs =
            cacheC0.removedDirs ++ (if eq.tempDir = "" then [] else [eq.tempDir]))) :=
  ⟨⟨by decide, by decide, by decide⟩,
    setEntry_spec "q3" wentryC3 9 cacheC0 (by decide) (by decide) (by decide)⟩

/-- C5. The failure clause of the claim fails on the code: a request
with project id `"p1"` and a fresh workspace has `shouldCleanup`
cleared already at workspace creation (`ensureTempDir`), and no
failure path restores it, so the session cleanup does NOT remove the
workspace when the compile fails — while a request without a project
id does get its workspace removed. -/
theorem session_cleanup_skips_failed_project_workspace :
    sessFreshProj.tempDir = "/tmp/latex-1"
    ∧ sessFreshProj.shouldCleanup = false
    ∧ sessionCleanupRemoves sessFreshProj = false
    ∧ sessionCleanupRemoves sessFreshNoProj = true := by
  refine ⟨?_, ?_, ?_, ?_⟩ <;> decide

/-- C7. `finalize` yields success exactly when the output PDF was
read, its first four bytes are `%PDF`, and the recorded exit code is
at most 2; an exit code above 2 fails even with a valid PDF, and a
missing or magic-invalid PDF fails regardless of exit code. -/
theorem finalizeResult_success_iff (hb : List Nat → String) (pdfRead : Option (List Nat))
    (exitCode : Int) :
    (finalizeResult hb pdfRead exitCode).success = true ↔
      ∃ data, pdfRead = some data ∧ data.take 4 = pdfMagic ∧ exitCode ≤ 2 := by
  rcases pdfRead with _ | data
  · simp [finalizeResult]
  · by_cases hm : data.take 4 = pdfMagic
    · have hlen4 : 4 ≤ data.length := by
        have hh := congrArg List.length hm
        simp [pdfMagic] at hh
        omega
      have hlen : ¬ data.length < 4 := by omega
      have hcond : ¬(data.length < 4 ∨ data.take 4 ≠ pdfMagic) := by
        rintro (h1 | h2)
        · exact hlen h1
        · exact h2 hm
      by_cases hec : 2 < exitCode
      · simp only [finalizeResult, if_neg hcond, if_pos hec]
        constructor
        · intro h
          simp at h
        · rintro ⟨d, hd, -, hle⟩
          omega
      · simp only [finalizeResult, if_neg hcond, if_neg hec]
        constructor
        · intro _
          exact ⟨data, rfl, hm, by omega⟩
        · intro _
          trivial
    · simp [finalizeResult, hm]

/-- C6. The claim fails on the code: workspace materialisation never
validates paths — `filepath.Join` resolves the `..` components of
`../../etc/passwd` lexically, both `createFileStructure` and
`writeFile` succeed (no BAD_REQUEST), and the performed write lands
at `/etc/passwd`, outside the `/tmp/ws` workspace. -/
theorem createFileStructure_escapes_workspace :
    createFileStructure (fun _ => none) "/tmp/ws" [trFile] =
      Except.ok [{ dest := "/etc/passwd", data := "oops" }]
    ∧ writeFileOp (fun _ => none) "/tmp/ws" trFile =
      Except.ok { dest := "/etc/passwd", data := "oops" }
    ∧ insideDir "/tmp/ws" "/etc/passwd" = false := by
  refine ⟨?_, ?_, ?_⟩ <;> rfl

theorem detectLoop_global (cs : List String) (seen : Bool) :
    detectLoop cs seen =
      if cs.any (fun c => bibtexBackendHit (strToLower c)) then BibliographyTool.bibtex
      else if seen || cs.any (fun c =>
          biberBackendHit (strToLower c) || biblatexImportHit (strToLower c)
          || biblatexCommandHit (strToLower c)) then BibliographyTool.biber
      else BibliographyTool.bibtex := by
  induction cs generalizing seen with
  | nil => simp [detectLoop]
  | cons c rest ih =>
    by_cases h1 : bibtexBackendHit (strToLower c) = true
    · simp [detectLoop, h1]
    · by_cases h2 : biberBackendHit (strToLower c) = true
      · simp [detectLoop, h1, h2, ih]
      · by_cases h3 : biblatexImportHit (strToLower c) = true
        · simp [detectLoop, h1, h2, h3, ih]
        · by_cases h4 : biblatexCommandHit (strToLower c) = true
          · simp [detectLoop, h1, h2, h3, h4, ih]
          · simp [detectLoop, h1, h2, h3, h4, ih]

theorem amendedBibliographyTool_ne_none (content : String) (files : List FileEntry) :
    amendedBibliographyTool content files ≠ BibliographyTool.bibNone := by
  unfold amendedBibliographyTool
  by_cases h1 : ((scanContents content files).any
      fun c => bibtexBackendHit (strToLower c)) = true
  · simp [h1]
  · by_cases h2 : ((scanContents content files).any fun c =>
        biberBackendHit (strToLower c) || biblatexImportHit (strToLower c)
        || biblatexCommandHit (strToLower c)) = true
    · simp [h1, h2]
    · simp [h1, h2]

/-- C9 counterexample: with a `.bib` file present (so a bibliography
is needed) and a main source whose only biblatex marker is
`\executebibliographyoptions`, the code selects biber while the
claim's rule — none of whose biber conditions (biblatex import,
`\addbibresource`, `\printbibliography`, `backend=biber`) hold —
selects bibtex. -/
theorem detectBibliographyTool_contradicts_claimed_rule :
    needsBibliography execBibContent [bibFileC9] = true
    ∧ strategyBibTool execBibContent [bibFileC9] = BibliographyTool.biber
    ∧ detectBibliographyTool execBibContent [bibFileC9] = BibliographyTool.biber
    ∧ claimedBibliographyTool execBibContent [bibFileC9] = BibliographyTool.bibtex := by
  refine ⟨?_, ?_, ?_, ?_⟩ <;> rfl

/-- C9 amended. When a bibliography is needed, the selected tool is
bibtex if any scanned content contains `backend=bibtex` (spaces
allowed around `=`); otherwise biber if any scanned content imports
biblatex or contains `\addbibresource`, `\printbibliography`,
`\executebibliographyoptions`, or `backend=biber` (spaces allowed);
otherwise bibtex — all case-insensitively. -/
theorem strategyBibTool_eq_amended (content : String) (files : List FileEntry)
    (hbib : needsBibliography content files = true) :
    strategyBibTool content files = amendedBibliographyTool content files := by
  have hdet : detectBibliographyTool content files = amendedBibliographyTool content files := by
    unfold detectBibliographyTool amendedBibliographyTool
    rw [detectLoop_global]
    simp
  simp only [strategyBibTool, hbib, if_true]
  rw [hdet, if_neg (amendedBibliographyTool_ne_none content files)]

/-- Witness: the amended C9 rule instantiated at the counterexample
input (bibliography needed, biber selected by both sides). -/
theorem strategyBibTool_eq_amended_witness :
    needsBibliography execBibContent [bibFileC9] = true ∧
    strategyBibTool execBibContent [bibFileC9] =
      amendedBibliographyTool execBibContent [bibFileC9] :=
  ⟨by decide, strategyBibTool_eq_amended execBibContent [bibFileC9] (by decide)⟩

theorem findMainFileAux_none (files : List FileEntry)
    (hb64 : ∀ f ∈ files, strEndsWith f.path ".tex" = true → f.encoding = "base64") :
    findMainFileAux files none = none := by
  induction files with
  | nil => rfl
  | cons f rest ih =>
    have hrest : ∀ g ∈ rest, strEndsWith g.path ".tex" = true → g.encoding = "base64" :=
      fun g hg => hb64 g (List.mem_cons_of_mem _ hg)
    by_cases henc : f.encoding = "base64"
    · simpa [findMainFileAux, henc] using ih hrest
    · by_cases htex : strEndsWith f.path ".tex" = true
      · exact absurd (hb64 f (List.mem_cons_self _ _) htex) henc
      · have htex' : strEndsWith f.path ".tex" = false := by
          simpa using htex
        simpa [findMainFileAux, henc, htex'] using ih hrest

/-- C10. When every `.tex` file of a request is base64-encoded,
`findMainFile` finds no main file — it skips base64 entries before
ever looking at their content — and the session fails with the
no-main-file error, whatever those files' (encoded) contents are. -/
theorem findMainFile_ignores_base64 (files : List FileEntry)
    (hb64 : ∀ f ∈ files, strEndsWith f.path ".tex" = true → f.encoding = "base64") :
    findMainFile files = none
    ∧ resolveMainFileOutcome files = some noMainFileError := by
  have haux : findMainFileAux files none = none := findMainFileAux_none files hb64
  refine ⟨haux, ?_⟩
  simp [resolveMainFileOutcome, mainFilePathOf, findMainFile, haux]

/-- Witness: C10 at a request whose only file is a base64 `.tex`
whose decoded content contains `\documentclass`. -/
theorem findMainFile_ignores_base64_witness :
    (∀ f ∈ [b64TexFile], strEndsWith f.path ".tex" = true → f.encoding = "base64") ∧
    (findMainFile [b64TexFile] = none
    ∧ resolveMainFileOutcome [b64TexFile] = some noMainFileError) :=
  ⟨by decide, findMainFile_ignores_base64 [b64TexFile] (by decide)⟩

theorem categorizeFileChange_lists (path : String) (c : FileChanges) :
    (categorizeFileChange path c).added = c.added
    ∧ (categorizeFileChange path c).modified = c.modified
    ∧ (categorizeFileChange path c).deleted = c.deleted := by
  unfold categorizeFileChange
  by_cases h1 : (strEndsWith path ".tex" || strEndsWith path ".sty"
      || strEndsWith path ".cls") = true
  · simp [h1]
  · by_cases h2 : strEndsWith path ".bib" = true
    · simp [h1, h2]
    · simp [h1, h2]

theorem diffLoop1_spec (h : String → String) (cached : List (String × String))
    (files : List FileEntry) (seen : List String) (changes : FileChanges) :
    (diffLoop1 h cached files (seen, changes)).1 =
      (files.map (fun f => f.path)).reverse ++ seen
    ∧ (diffLoop1 h cached files (seen, changes)).2.added =
      changes.added ++ files.filter (isAddedFile cached)
    ∧ (diffLoop1 h cached files (seen, changes)).2.modified =
      changes.modified ++ files.filter (isModifiedFile h cached)
    ∧ (diffLoop1 h cached files (seen, changes)).2.deleted = changes.deleted := by
  induction files generalizing seen changes with
  | nil => simp [diffLoop1]
  | cons f rest ih =>
    rcases hlook : alookup cached f.path with _ | ch
    · have hstep : diffLoop1 h cached (f :: rest) (seen, changes) =
          diffLoop1 h cached rest (f.path :: seen,
            categorizeFileChange f.path { changes with added := changes.added ++ [f] }) := by
        simp [diffLoop1, hlook]
      obtain ⟨hs, ha, hm, hd⟩ := ih (f.path :: seen)
        (categorizeFileChange f.path { changes with added := changes.added ++ [f] })
      obtain ⟨hca, hcm, hcd⟩ := categorizeFileChange_lists f.path
        { changes with added := changes.added ++ [f] }
      rw [hstep]
      refine ⟨?_, ?_, ?_, ?_⟩
      · rw [hs]
        simp
      · rw [ha, hca]
        simp [List.filter_cons, isAddedFile, hlook]
      · rw [hm, hcm]
        simp [List.filter_cons, isModifiedFile, hlook]
      · rw [hd, hcd]
    · by_cases hne : h f.content = ch
      · have hstep : diffLoop1 h cached (f :: rest) (seen, changes) =
            diffLoop1 h cached rest (f.path :: seen, changes) := by
          simp [diffLoop1, hlook, hne]
        obtain ⟨hs, ha, hm, hd⟩ := ih (f.path :: seen) changes
        rw [hstep]
        refine ⟨?_, ?_, ?_, ?_⟩
        · rw [hs]
          simp
        · rw [ha]
          simp [List.filter_cons, isAddedFile, hlook]
        · rw [hm]
          simp [List.filter_cons, isModifiedFile, hlook, hne]
        · exact hd
      · have hstep : diffLoop1 h cached (f :: rest) (seen, changes) =
            diffLoop1 h cached rest (f.path :: seen,
              categorizeFileChange f.path
                { changes with modified := changes.modified ++ [f] }) := by
          simp [diffLoop1, hlook, hne]
        obtain ⟨hs, ha, hm, hd⟩ := ih (f.path :: seen)
          (categorizeFileChange f.path { changes with modified := changes.modified ++ [f] })
        obtain ⟨hca, hcm, hcd⟩ := categorizeFileChange_lists f.path
          { changes with modified := changes.modified ++ [f] }
        rw [hstep]
        refine ⟨?_, ?_, ?_, ?_⟩
        · rw [hs]
          simp
        · rw [ha, hca]
          simp [List.filter_cons, isAddedFile, hlook]
        · rw [hm, hcm]
          simp [List.filter_cons, isModifiedFile, hlook, hne]
        · rw [hd, hcd]

theorem diffLoop2_spec (seen : List String) (cached : List (String × String))
    (changes : FileChanges) :
    (diffLoop2 seen cached changes).added = changes.added
    ∧ (diffLoop2 seen cached changes).modified = changes.modified
    ∧ (diffLoop2 seen cached changes).deleted =
      changes.deleted ++ (cached.filter (fun p => !(seen.contains p.1))).map Prod.fst := by
  induction cached generalizing changes with
  | nil => simp [diffLoop2]
  | cons p rest ih =>
    by_cases hc : p.1 ∈ seen
    · have hstep : diffLoop2 seen (p :: rest) changes = diffLoop2 seen rest changes := by
        simp [diffLoop2, hc]
      obtain ⟨ha, hm, hd⟩ := ih changes
      rw [hstep]
      refine ⟨ha, hm, ?_⟩
      rw [hd]
      simp [List.filter_cons, hc]
    · have hstep : diffLoop2 seen (p :: rest) changes =
          diffLoop2 seen rest (categorizeFileChange p.1
            { changes with deleted := changes.deleted ++ [p.1] }) := by
        simp [diffLoop2, hc]
      obtain ⟨ha, hm, hd⟩ := ih (categorizeFileChange p.1
        { changes with deleted := changes.deleted ++ [p.1] })
      obtain ⟨hca, hcm, hcd⟩ := categorizeFileChange_lists p.1
        { changes with deleted := changes.deleted ++ [p.1] }
      rw [hstep]
      refine ⟨by rw [ha, hca], by rw [hm, hcm], ?_⟩
      rw [hd, hcd]
      simp [List.filter_cons, hc]

theorem diffFiles_lists (h : String → String) (cur : List FileEntry)
    (cached : List (String × String)) :
    (diffFiles h cur cached).added = cur.filter (isAddedFile cached)
    ∧ (diffFiles h cur cached).modified = cur.filter (isModifiedFile h cached)
    ∧ (diffFiles h cur cached).deleted =
      (cached.filter (fun p =>
        !((cur.map (fun f => f.path)).reverse.contains p.1))).map Prod.fst := by
  obtain ⟨hs, ha, hm, hd⟩ := diffLoop1_spec h cached cur [] emptyChanges
  obtain ⟨ha2, hm2, hd2⟩ := diffLoop2_spec (diffLoop1 h cached cur ([], emptyChanges)).1
    cached (diffLoop1 h cached cur ([], emptyChanges)).2
  unfold diffFiles
  refine ⟨?_, ?_, ?_⟩
  · rw [ha2, ha]
    simp [emptyChanges]
  · rw [hm2, hm]
    simp [emptyChanges]
  · rw [hd2, hd, hs]
    simp [emptyChanges]

theorem foldl_ainsert_append (h : String → String) (files : List FileEntry)
    (m : List (String × String))
    (hdisj : ∀ f ∈ files, f.path ∉ m.map Prod.fst)
    (hnd : (files.map (fun f => f.path)).Nodup) :
    files.foldl (fun m f => ainsert m f.path (h f.content)) m =
      m ++ files.map (fun f => (f.path, h f.content)) := by
  induction files generalizing m with
  | nil => simp
  | cons f rest ih =>
    simp only [List.map_cons, List.nodup_cons] at hnd
    simp only [List.foldl_cons]
    rw [ainsert_of_not_mem _ _ _ (hdisj f (List.mem_cons_self _ _))]
    rw [ih (m ++ [(f.path, h f.content)]) ?_ hnd.2]
    · simp
    · intro g hg
      simp only [List.map_append, List.mem_append, List.map_cons, List.map_nil,
        List.mem_singleton]
      push_neg
      refine ⟨hdisj g (List.mem_cons_of_mem _ hg), ?_⟩
      intro hc
      exact hnd.1 (hc ▸ List.mem_map.mpr ⟨g, hg, rfl⟩)

theorem buildFileHashMap_eq (h : String → String) (files : List FileEntry)
    (hnd : (files.map (fun f => f.path)).Nodup) :
    buildFileHashMap h files = files.map (fun f => (f.path, h f.content)) := by
  unfold buildFileHashMap
  simpa using foldl_ainsert_append h files [] (by simp) hnd

theorem alookup_map_content (files : List FileEntry) (g : String → String) (p : String) :
    alookup (files.map (fun f => (f.path, g f.content))) p =
      Option.map g (contentAt files p) := by
  induction files with
  | nil => simp [alookup, contentAt]
  | cons f rest ih =>
    by_cases hp : f.path = p
    · simp [contentAt, alookup, hp]
    · simp only [contentAt, List.map_cons] at ih ⊢
      simp only [alookup, if_neg hp]
      exact ih

theorem contentAt_eq_none_iff (files : List FileEntry) (p : String) :
    contentAt files p = none ↔ p ∉ files.map (fun f => f.path) := by
  induction files with
  | nil => simp [contentAt, alookup]
  | cons f rest ih =>
    by_cases hp : f.path = p
    · simp [contentAt, alookup, hp]
    · simp only [contentAt, List.map_cons] at ih ⊢
      simp only [alookup, if_neg hp, List.mem_cons]
      rw [ih]
      constructor
      · intro hn
        rintro (heq | hmem)
        · exact hp heq.symm
        · exact hn hmem
      · intro hn hmem
        exact hn (Or.inr hmem)

theorem contentAt_of_mem_nodup (files : List FileEntry) (f : FileEntry)
    (hnd : (files.map (fun g => g.path)).Nodup) (hmem : f ∈ files) :
    contentAt files f.path = some f.content := by
  apply alookup_eq_some_of_mem_nodup
  · simpa [List.map_map, Function.comp] using hnd
  · exact List.mem_map.mpr ⟨f, hmem, rfl⟩

theorem exists_of_contentAt_eq_some (files : List FileEntry) (p c : String)
    (hc : contentAt files p = some c) : ∃ f ∈ files, f.path = p ∧ f.content = c := by
  obtain ⟨f, hmem, hpair⟩ := List.mem_map.mp (mem_of_alookup_eq_some _ _ _ hc)
  injection hpair with hp hcv
  exact ⟨f, hmem, hp, hcv⟩

/-- C8. `diffFiles` against `buildFileHashMap prev` classifies a
current file as added iff its path is absent from the cached map
(prev's paths), as modified iff the path is present but the content
digest differs, and reports as deleted exactly prev's paths absent
from the current set; consequently — for unique paths and a
collision-free digest — added, modified and deleted are all empty iff
current and prev agree on every path's content. -/
theorem diffFiles_spec (h : String → String) (cur prev : List FileEntry)
    (hinj : Function.Injective h)
    (hndc : (cur.map (fun f => f.path)).Nodup)
    (hndp : (prev.map (fun f => f.path)).Nodup) :
    (∀ f ∈ cur,
      (f ∈ (diffFiles h cur (buildFileHashMap h prev)).added ↔
        f.path ∉ prev.map (fun g => g.path))
      ∧ (f ∈ (diffFiles h cur (buildFileHashMap h prev)).modified ↔
        ∃ c, contentAt prev f.path = some c ∧ h f.content ≠ h c))
    ∧ (∀ p, p ∈ (diffFiles h cur (buildFileHashMap h prev)).deleted ↔
        p ∈ prev.map (fun g => g.path) ∧ p ∉ cur.map (fun g => g.path))
    ∧ ((diffFiles h cur (buildFileHashMap h prev)).added = []
        ∧ (diffFiles h cur (buildFileHashMap h prev)).modified = []
        ∧ (diffFiles h cur (buildFileHashMap h prev)).deleted = [] ↔
        ∀ p, contentAt cur p = contentAt prev p) := by
  have hbm : buildFileHashMap h prev = prev.map (fun f => (f.path, h f.content)) :=
    buildFileHashMap_eq h prev hndp
  obtain ⟨hA, hM, hD⟩ := diffFiles_lists h cur (buildFileHashMap h prev)
  have hlook : ∀ p, alookup (buildFileHashMap h prev) p =
      Option.map h (contentAt prev p) := by
    intro p
    rw [hbm]
    exact alookup_map_content prev h p
  have hadd : ∀ f : FileEntry, (isAddedFile (buildFileHashMap h prev) f = true ↔
      f.path ∉ prev.map (fun g => g.path)) := by
    intro f
    rw [← contentAt_eq_none_iff prev f.path]
    simp only [isAddedFile, hlook f.path, Option.isNone_iff_eq_none]
    exact Option.map_eq_none'
  have hmod : ∀ f : FileEntry, (isModifiedFile h (buildFileHashMap h prev) f = true ↔
      ∃ c, contentAt prev f.path = some c ∧ h f.content ≠ h c) := by
    intro f
    cases hc : contentAt prev f.path with
    | none =>
      have hl : alookup (buildFileHashMap h prev) f.path = none := by
        rw [hlook f.path, hc]
        rfl
      simp [isModifiedFile, hl, hc]
    | some c =>
      have hl : alookup (buildFileHashMap h prev) f.path = some (h c) := by
        rw [hlook f.path, hc]
        rfl
      simp [isModifiedFile, hl, hc, bne_iff_ne]
  have hAmem : ∀ f ∈ cur, (f ∈ (diffFiles h cur (buildFileHashMap h prev)).added ↔
      f.path ∉ prev.map (fun g => g.path)) := by
    intro f hf
    rw [hA, List.mem_filter, ← hadd f]
    simp [hf]
  have hMmem : ∀ f ∈ cur, (f ∈ (diffFiles h cur (buildFileHashMap h prev)).modified ↔
      ∃ c, contentAt prev f.path = some c ∧ h f.content ≠ h c) := by
    intro f hf
    rw [hM, List.mem_filter, ← hmod f]
    simp [hf]
  have hDmem : ∀ p : String, (p ∈ (diffFiles h cur (buildFileHashMap h prev)).deleted ↔
      p ∈ prev.map (fun g => g.path) ∧ p ∉ cur.map (fun g => g.path)) := by
    intro p
    rw [hD, hbm]
    constructor
    · intro hmem
      obtain ⟨⟨p', c'⟩, hmemf, hfst⟩ := List.mem_map.mp hmem
      have hp' : p' = p := hfst
      subst hp'
      obtain ⟨hin, hseen⟩ := List.mem_filter.mp hmemf
      constructor
      · obtain ⟨g, hg, hpair⟩ := List.mem_map.mp hin
        injection hpair with h1 h2
        exact List.mem_map.mpr ⟨g, hg, h1⟩
      · intro hc
        have hrev : ((cur.map (fun f => f.path)).reverse).contains p' = true :=
          List.elem_iff.mpr (List.mem_reverse.mpr hc)
        rw [hrev] at hseen
        simp at hseen
    · rintro ⟨hprev, hcur⟩
      obtain ⟨g, hg, hgp⟩ := List.mem_map.mp hprev
      subst hgp
      refine List.mem_map.mpr ⟨(g.path, h g.content), ?_, rfl⟩
      refine List.mem_filter.mpr ⟨List.mem_map.mpr ⟨g, hg, rfl⟩, ?_⟩
      have hnm : ((cur.map (fun f => f.path)).reverse).contains g.path = false := by
        apply Bool.eq_false_iff.mpr
        intro hcc
        exact hcur (List.mem_reverse.mp (List.elem_iff.mp hcc))
      simp only [hnm, Bool.not_false]
  refine ⟨fun f hf => ⟨hAmem f hf, hMmem f hf⟩, hDmem, ?_⟩
  constructor
  · rintro ⟨hea, hem, hed⟩ p
    cases hc : contentAt cur p with
    | some c =>
      obtain ⟨f, hf, hfp, hfc⟩ := exists_of_contentAt_eq_some cur p c hc
      have hnotadd : f ∉ (diffFiles h cur (buildFileHashMap h prev)).added := by
        rw [hea]
        exact List.not_mem_nil f
      have hinprev : f.path ∈ prev.map (fun g => g.path) := by
        by_contra hcon
        exact hnotadd ((hAmem f hf).mpr hcon)
      have hsome : contentAt prev f.path ≠ none := fun hn =>
        ((contentAt_eq_none_iff prev f.path).mp hn) hinprev
      obtain ⟨c', hc'⟩ := Option.ne_none_iff_exists'.mp hsome
      have hnotmod : f ∉ (diffFiles h cur (buildFileHashMap h prev)).modified := by
        rw [hem]
        exact List.not_mem_nil f
      have heq : h f.content = h c' := by
        by_contra hcon
        exact hnotmod ((hMmem f hf).mpr ⟨c', hc', hcon⟩)
      have : f.content = c' := hinj heq
      rw [← hfp, hc', ← this, hfc]
    | none =>
      have hcurnm : p ∉ cur.map (fun g => g.path) :=
        (contentAt_eq_none_iff cur p).mp hc
      by_contra hcon
      have hprevsome : contentAt prev p ≠ none := fun hn => hcon (by rw [hn])
      have hinprev : p ∈ prev.map (fun g => g.path) := by
        by_contra hx
        exact hprevsome ((contentAt_eq_none_iff prev p).mpr hx)
      have : p ∈ (diffFiles h cur (buildFileHashMap h prev)).deleted :=
        (hDmem p).mpr ⟨hinprev, hcurnm⟩
      rw [hed] at this
      exact List.not_mem_nil p this
  · intro hall
    refine ⟨?_, ?_, ?_⟩
    · apply List.eq_nil_iff_forall_not_mem.mpr
      intro f hfmem
      have hf : f ∈ cur := by
        rw [hA] at hfmem
        exact (List.mem_filter.mp hfmem).1
      have hnm : f.path ∉ prev.map (fun g => g.path) := (hAmem f hf).mp hfmem
      have hcur : contentAt cur f.path = some f.content :=
        contentAt_of_mem_nodup cur f hndc hf
      have : contentAt prev f.path = some f.content := (hall f.path) ▸ hcur
      exact hnm (by
        by_contra hx
        rw [(contentAt_eq_none_iff prev f.path).mpr hx] at this
        cases this)
    · apply List.eq_nil_iff_forall_not_mem.mpr
      intro f hfmem
      have hf : f ∈ cur := by
        rw [hM] at hfmem
        exact (List.mem_filter.mp hfmem).1
      obtain ⟨c, hcp, hne⟩ := (hMmem f hf).mp hfmem
      have hcur : contentAt cur f.path = some f.content :=
        contentAt_of_mem_nodup cur f hndc hf
      have : contentAt prev f.path = some f.content := (hall f.path) ▸ hcur
      rw [this] at hcp
      injection hcp with hcp
      exact hne (hcp ▸ rfl)
    · apply List.eq_nil_iff_forall_not_mem.mpr
      intro p hpmem
      obtain ⟨hprev, hcur⟩ := (hDmem p).mp hpmem
      have hcnone : contentAt cur p = none := (contentAt_eq_none_iff cur p).mpr hcur
      have hpnone : contentAt prev p = none := (hall p) ▸ hcnone
      exact (by simpa using hprev : ¬ p ∉ prev.map (fun g => g.path))
        ((contentAt_eq_none_iff prev p).mp hpnone)

/-- Witness: the C8 theorem instantiated with the identity digest at
one-file lists. -/
theorem diffFiles_spec_witness :
    (Function.Injective (id : String → String)
      ∧ (wcurC8.map (fun f => f.path)).Nodup ∧ (wcurC8.map (fun f => f.path)).Nodup) ∧
    ((∀ f ∈ wcurC8,
      (f ∈ (diffFiles id wcurC8 (buildFileHashMap id wcurC8)).added ↔
        f.path ∉ wcurC8.map (fun g => g.path))
      ∧ (f ∈ (diffFiles id wcurC8 (buildFileHashMap id wcurC8)).modified ↔
        ∃ c, contentAt wcurC8 f.path = some c ∧ id f.content ≠ id c))
    ∧ (∀ p, p ∈ (diffFiles id wcurC8 (buildFileHashMap id wcurC8)).deleted ↔
        p ∈ wcurC8.map (fun g => g.path) ∧ p ∉ wcurC8.map (fun g => g.path))
    ∧ ((diffFiles id wcurC8 (buildFileHashMap id wcurC8)).added = []
        ∧ (diffFiles id wcurC8 (buildFileHashMap id wcurC8)).modified = []
        ∧ (diffFiles id wcurC8 (buildFileHashMap id wcurC8)).deleted = [] ↔
        ∀ p, contentAt wcurC8 p = contentAt wcurC8 p)) :=
  ⟨⟨fun a b hab => hab, by decide, by decide⟩,
    diffFiles_spec id wcurC8 wcurC8 (fun a b hab => hab) (by decide) (by decide)⟩

/-- C1. The claim fails on the code: while session 1 holds project
`"p"`'s lock (mutex 0, acquired via `lockProject` and never released),
the expiry sweep deletes `"p"`'s lock from the lock map, so session
2's `lockProject "p"` creates a fresh mutex (1) and succeeds
immediately — two compile sessions for `"p"` are inside the critical
section at once — and `unlockProject "p"` now releases mutex 1, not
the mutex session 1 acquired. -/
theorem lockProject_succeeds_while_project_lock_held :
    lockProject 1 "p" cacheC0 = some cacheC1
    ∧ nlookup cacheC1.heldBy 0 = some 1
    ∧ lockProject 2 "p" (cleanup 100 cacheC1) = some cacheC3
    ∧ cacheC3.heldBy = [(0, 1), (1, 2)]
    ∧ (unlockProject "p" cacheC3).2 = some 1 := by
  refine ⟨?_, rfl, ?_, rfl, ?_⟩ <;> decide

/-- C4. The claim fails on the code: the background sweep at minute
100 removes project `"p"`'s entry and deletes its workspace directory
even though `"p"`'s project lock (mutex 0) is held by live session 1
(`heldBy` still records the hold after the sweep). -/
theorem cleanup_removes_entry_whose_lock_is_held :
    lockProject 1 "p" cacheC0 = some cacheC1
    ∧ nlookup cacheC1.heldBy 0 = some 1
    ∧ alookup cacheC1.projectLocks "p" = some 0
    ∧ cacheExpirationTime < 100 - entryP.lastAccessTime
    ∧ (cleanup 100 cacheC1).entries = []
    ∧ (cleanup 100 cacheC1).removedDirs = ["/tmp/wsp"]
    ∧ (cleanup 100 cacheC1).heldBy = [(0, 1)] := by
  refine ⟨?_, rfl, ?_, ?_, ?_, ?_, ?_⟩ <;> decide

end OctreeCompile
